import Mathlib

/-!
Verification of the document-processing pipeline: the text chunker of
`backend/app/services/document_processor.py` and the table parser of
`backend/app/services/table_parser.py`.  Text is modelled as `List Char`
(Python strings; `len` is list length), tables as lists of rows of cells,
amounts as Decimal coefficient/scale pairs with a rational denotation, and the
external persistence/indexing collaborators as explicit parameters.
-/

namespace DocPipeline

/-- Convert a string literal to the list-of-characters representation used throughout. -/
def s2l (s : String) : List Char := s.data

/-- Whitespace characters recognized by Python's `str.split` / `str.strip` / `\s`. -/
def isWS (c : Char) : Bool :=
  c == ' ' || c == '\t' || c == '\n' || c == '\r' || c == '\x0b' || c == '\x0c'

theorem length_dropWhile_le (p : α → Bool) (l : List α) :
    (l.dropWhile p).length ≤ l.length := by
  induction l with
  | nil => simp
  | cons a l ih =>
    by_cases h : p a
    · simp only [List.dropWhile, h, List.length_cons]
      omega
    · simp [List.dropWhile, h]

/-- Helper for Python `str.split()`: `acc` is the reversed current run of
non-whitespace characters. -/
def tokensAux : List Char → List Char → List (List Char)
  | [], acc => if acc = [] then [] else [acc.reverse]
  | c :: rest, acc =>
    if isWS c then
      if acc = [] then tokensAux rest []
      else acc.reverse :: tokensAux rest []
    else tokensAux rest (c :: acc)

/-- Python `str.split()` with no arguments: split on runs of whitespace, dropping
empty pieces. -/
def tokens (cs : List Char) : List (List Char) := tokensAux cs []

/-- Helper for Python `str.strip()`: remove trailing whitespace. -/
def stripTrail : List Char → List Char
  | [] => []
  | c :: rest =>
    let r := stripTrail rest
    if r = [] ∧ isWS c then [] else c :: r

/-- Python `str.strip()`: remove leading and trailing whitespace. -/
def strip (cs : List Char) : List Char := stripTrail (cs.dropWhile isWS)

/-- Configuration values `settings.CHUNK_SIZE` and `settings.CHUNK_OVERLAP`
(externally supplied, see spec section 6). -/
structure ChunkCfg where
  size : Nat
  overlap : Nat
  deriving DecidableEq, Repr

/-- A produced chunk: the dict `{"text", "page", "chunk_index"}` built by the source. -/
structure Chunk where
  text : List Char
  page : Nat
  chunk_index : Nat
  deriving DecidableEq, Repr

/-- One element of `text_content`: the dict `{"page", "text"}`. -/
structure PageText where
  page : Nat
  text : List Char
  deriving DecidableEq, Repr

/-- Shift a chunk's index by `k` (used to relate runs of the chunker that start
at different chunk indices). -/
def shiftIdx (k : Nat) (c : Chunk) : Chunk := ⟨c.text, c.page, k + c.chunk_index⟩

/-- Helper for Python `text.split('\n\n')` (leftmost, non-overlapping matches). -/
def paraSplitAux : List Char → List Char → List (List Char)
  | acc, '\n' :: '\n' :: rest => acc.reverse :: paraSplitAux [] rest
  | acc, c :: rest => paraSplitAux (c :: acc) rest
  | acc, [] => [acc.reverse]

/-- Python `text.split('\n\n')` from `_chunk_text` line 141. -/
def splitParagraphs (text : List Char) : List (List Char) := paraSplitAux [] text

/-- Helper for `re.split(r'(?<=[.!?])\s+', paragraph)`: `prev` is the character
before the current position (the regex lookbehind), `acc` the reversed current
piece, and `skip` records that the position is inside the whitespace run of a
match being consumed (the greedy `\s+`). -/
def splitSentAux : List Char → Char → List Char → Bool → List (List Char)
  | [], _, acc, _ => [acc.reverse]
  | c :: rest, prev, acc, skip =>
    if skip then
      if isWS c then splitSentAux rest c acc true
      else splitSentAux rest c (c :: acc) false
    else if isWS c ∧ (prev = '.' ∨ prev = '!' ∨ prev = '?') then
      acc.reverse :: splitSentAux rest c [] true
    else splitSentAux rest c (c :: acc) false

/-- Model of `re.split(r'(?<=[.!?])\s+', paragraph)` from `_split_large_paragraph` line 209. -/
def splitSentences (p : List Char) : List (List Char) := splitSentAux p ' ' [] false

/-- Helper for Python `s.rfind(pat)` with a two-character pattern: `i` is the index
of the head of the list in the original string. -/
def rfind2Aux (a b : Char) : List Char → Nat → Int
  | x :: y :: rest, i =>
    let later := rfind2Aux a b (y :: rest) (i + 1)
    if later ≥ 0 then later
    else if x = a ∧ y = b then (i : Int) else -1
  | _, _ => -1

/-- Python `text.rfind(⟨a, b⟩)`: index of the last occurrence, `-1` if absent. -/
def rfind2 (a b : Char) (cs : List Char) : Int := rfind2Aux a b cs 0

/-- Model of `_get_overlap_text` (document_processor.py lines 185-199).  Note that
`text[-overlap:]` is the whole text when `overlap = 0` (Python slice semantics). -/
def get_overlap_text (cfg : ChunkCfg) (text : List Char) : List Char :=
  if text.length ≤ cfg.overlap then text
  else
    let overlap := if cfg.overlap = 0 then text else text.drop (text.length - cfg.overlap)
    let sentence_end :=
      max (rfind2 '.' ' ' overlap) (max (rfind2 '!' ' ' overlap) (rfind2 '?' ' ' overlap))
    if sentence_end > 0 then overlap.drop (sentence_end.toNat + 2) else overlap

/-- Inner word loop of `_split_large_paragraph` (lines 227-240).  Returns the produced
chunks, the running buffer left after the loop, and the next chunk index. -/
def wordLoop (cfg : ChunkCfg) (page : Nat) :
    List (List Char) → List Char → Nat → List Chunk × List Char × Nat
  | [], cur, idx => ([], cur, idx)
  | w :: ws, cur, idx =>
    if cur.length + w.length > cfg.size then
      if cur ≠ [] then
        let r := wordLoop cfg page ws w (idx + 1)
        (⟨strip cur, page, idx⟩ :: r.1, r.2.1, r.2.2)
      else
        wordLoop cfg page ws w idx
    else
      wordLoop cfg page ws (cur ++ (if cur = [] then [] else [' ']) ++ w) idx

/-- Sentence loop of `_split_large_paragraph` (lines 214-251), including the final
flush of the remaining buffer. -/
def sentLoop (cfg : ChunkCfg) (page : Nat) :
    List (List Char) → List Char → Nat → List Chunk
  | [], cur, idx => if strip cur ≠ [] then [⟨strip cur, page, idx⟩] else []
  | s :: ss, cur, idx =>
    if cur.length + s.length > cfg.size then
      let flushed : List Chunk := if cur ≠ [] then [⟨strip cur, page, idx⟩] else []
      let idx1 := if cur ≠ [] then idx + 1 else idx
      if s.length > cfg.size then
        let r := wordLoop cfg page (tokens s) [] idx1
        flushed ++ r.1 ++ sentLoop cfg page ss r.2.1 r.2.2
      else
        flushed ++ sentLoop cfg page ss s idx1
    else
      sentLoop cfg page ss (cur ++ (if cur = [] then [] else [' ']) ++ s) idx

/-- Model of `_split_large_paragraph` (document_processor.py lines 201-253). -/
def split_large_paragraph (cfg : ChunkCfg) (paragraph : List Char) (page : Nat)
    (start_index : Nat) : List Chunk :=
  sentLoop cfg page (splitSentences paragraph) [] start_index

/-- Paragraph loop of `_chunk_text` for one page (lines 145-181), including the
end-of-page flush of the remaining buffer. -/
def paraLoop (cfg : ChunkCfg) (page : Nat) :
    List (List Char) → List Char → Nat → List Chunk
  | [], cur, idx => if strip cur ≠ [] then [⟨strip cur, page, idx⟩] else []
  | p :: ps, cur, idx =>
    let para := strip p
    if para = [] then paraLoop cfg page ps cur idx
    else if cur.length + para.length > cfg.size then
      if cur ≠ [] then
        ⟨strip cur, page, idx⟩ ::
          paraLoop cfg page ps (get_overlap_text cfg cur ++ ' ' :: para) (idx + 1)
      else
        let pcs := split_large_paragraph cfg para page idx
        pcs ++ paraLoop cfg page ps [] (idx + pcs.length)
    else
      paraLoop cfg page ps (cur ++ (if cur = [] then [] else ['\n', '\n']) ++ para) idx

/-- Page loop of `_chunk_text` (lines 136-181), threading the document-global
chunk index across pages. -/
def chunkPages (cfg : ChunkCfg) : Nat → List PageText → List Chunk
  | _, [] => []
  | idx, u :: us =>
    let cs := paraLoop cfg u.page (splitParagraphs u.text) [] idx
    cs ++ chunkPages cfg (idx + cs.length) us

/-- Model of `_chunk_text` (document_processor.py lines 128-183). -/
def chunk_text (cfg : ChunkCfg) (text_content : List PageText) : List Chunk :=
  chunkPages cfg 0 text_content

/-! ### Value parsers (table_parser.py) -/

/-- Characters kept by `re.sub(r'[^\d.\-\+]', '', ...)` in `_parse_amount`. -/
def amountKeep (c : Char) : Bool := c.isDigit || c == '.' || c == '-' || c == '+'

/-- The cleaned amount string: `re.sub(r'[^\d.\-\+]', '', amount_str.strip())`. -/
def cleanAmount (s : List Char) : List Char := (strip s).filter amountKeep

/-- Numeric value of a digit string (empty means 0). -/
def digitsVal (ds : List Char) : Nat := ds.foldl (fun n c => n * 10 + (c.toNat - '0'.toNat)) 0

/-- A Python `Decimal` value as stored: an integer coefficient and the number of
fractional digits (the negated exponent).  The numeric value is
`coef / 10 ^ scale`. -/
structure Dec where
  coef : Int
  scale : Nat
  deriving DecidableEq, Repr

/-- Numeric value of a `Dec`. -/
def Dec.toRat (d : Dec) : ℚ := (d.coef : ℚ) / (10 : ℚ) ^ d.scale

/-- Python `abs` on a `Decimal` (keeps the scale). -/
def Dec.absD (d : Dec) : Dec := ⟨|d.coef|, d.scale⟩

/-- Python `Decimal(str)` conversion, restricted to the alphabet `[0-9.+-]` that the
cleaning step can produce: an optional leading sign, then digits with at most one
decimal point and at least one digit; anything else raises (here: `none`). -/
def decimalOfChars (cs : List Char) : Option Dec :=
  let sgn : Int := match cs with
    | '-' :: _ => -1
    | _ => 1
  let rest : List Char := match cs with
    | '-' :: r => r
    | '+' :: r => r
    | r => r
  let ip := rest.takeWhile Char.isDigit
  match rest.dropWhile Char.isDigit with
  | [] => if ip = [] then none else some ⟨sgn * (digitsVal ip : Int), 0⟩
  | '.' :: fr =>
    if fr.all Char.isDigit ∧ (ip ≠ [] ∨ fr ≠ []) then
      some ⟨sgn * (digitsVal (ip ++ fr) : Int), fr.length⟩
    else none
  | _ => none

/-- Model of `_parse_amount` (table_parser.py lines 387-411).  The comparison `amount < 0`
on a `Decimal` is its coefficient's sign. -/
def parse_amount (s : List Char) (allow_negative : Bool) : Option Dec :=
  if strip s = [] then none
  else
    let cleaned := cleanAmount s
    if cleaned = [] then none
    else
      match decimalOfChars cleaned with
      | none => none
      | some amount =>
        if allow_negative = false ∧ amount.coef < 0 then some amount.absD else some amount

/-- A calendar date as produced by `datetime.strptime` (time fields are unused). -/
structure Date where
  year : Nat
  month : Nat
  day : Nat
  deriving DecidableEq, Repr

/-- Gregorian leap-year rule used by `datetime`. -/
def isLeap (y : Nat) : Bool := y % 4 = 0 && (y % 100 ≠ 0 || y % 400 = 0)

/-- Days in a month, as validated by the `datetime` constructor. -/
def daysInMonth (y m : Nat) : Nat :=
  if m = 2 then (if isLeap y then 29 else 28)
  else if m = 4 ∨ m = 6 ∨ m = 9 ∨ m = 11 then 30
  else 31

/-- Validation performed by `datetime(year, month, day)`. -/
def mkDate (y m d : Nat) : Option Date :=
  if 1 ≤ y ∧ y ≤ 9999 ∧ 1 ≤ m ∧ m ≤ 12 ∧ 1 ≤ d ∧ d ≤ daysInMonth y m then
    some ⟨y, m, d⟩
  else none

/-- strptime `%d`/`%m`: one or two digits (greedily two). -/
def digits2 : List Char → Option (Nat × List Char)
  | c :: rest =>
    if c.isDigit then
      match rest with
      | c2 :: rest2 =>
        if c2.isDigit then some ((c.toNat - '0'.toNat) * 10 + (c2.toNat - '0'.toNat), rest2)
        else some (c.toNat - '0'.toNat, rest)
      | [] => some (c.toNat - '0'.toNat, [])
    else none
  | [] => none

/-- strptime `%Y`: exactly four digits. -/
def digits4 (cs : List Char) : Option (Nat × List Char) :=
  match cs with
  | a :: b :: c :: d :: rest =>
    if a.isDigit && b.isDigit && c.isDigit && d.isDigit then
      some (digitsVal [a, b, c, d], rest)
    else none
  | _ => none

/-- A literal character in a strptime format. -/
def lit (c : Char) : List Char → Option (List Char)
  | x :: rest => if x = c then some rest else none
  | [] => none

/-- Whitespace in a strptime format matches `\s+`. -/
def wsPlus : List Char → Option (List Char)
  | c :: rest => if isWS c then some (rest.dropWhile isWS) else none
  | [] => none

/-- Lower-cased month abbreviations for strptime `%b`. -/
def monthAbbrs : List (List Char) :=
  [s2l "jan", s2l "feb", s2l "mar", s2l "apr", s2l "may", s2l "jun",
   s2l "jul", s2l "aug", s2l "sep", s2l "oct", s2l "nov", s2l "dec"]

/-- Lower-cased full month names for strptime `%B`. -/
def monthNames : List (List Char) :=
  [s2l "january", s2l "february", s2l "march", s2l "april", s2l "may", s2l "june",
   s2l "july", s2l "august", s2l "september", s2l "october", s2l "november", s2l "december"]

/-- Match one name of `names` (1-based result) as a case-insensitive prefix. -/
def matchNameGo : Nat → List (List Char) → List Char → Option (Nat × List Char)
  | _, [], _ => none
  | i, n :: ns, cs =>
    if (cs.take n.length).map Char.toLower = n then some (i, cs.drop n.length)
    else matchNameGo (i + 1) ns cs

/-- strptime `%b`: an English month abbreviation, case-insensitive. -/
def monthAbbr (cs : List Char) : Option (Nat × List Char) := matchNameGo 1 monthAbbrs cs

/-- strptime `%B`: an English full month name, case-insensitive. -/
def monthFull (cs : List Char) : Option (Nat × List Char) := matchNameGo 1 monthNames cs

/-- strptime with format `"%Y-%m-%d"`. -/
def fmtYmdDash (cs : List Char) : Option Date := do
  let (y, r1) ← digits4 cs
  let r2 ← lit '-' r1
  let (m, r3) ← digits2 r2
  let r4 ← lit '-' r3
  let (d, r5) ← digits2 r4
  if r5 = [] then mkDate y m d else none

/-- strptime with format `"%m/%d/%Y"`. -/
def fmtMdYSlash (cs : List Char) : Option Date := do
  let (m, r1) ← digits2 cs
  let r2 ← lit '/' r1
  let (d, r3) ← digits2 r2
  let r4 ← lit '/' r3
  let (y, r5) ← digits4 r4
  if r5 = [] then mkDate y m d else none

/-- strptime with format `"%d/%m/%Y"`. -/
def fmtDmYSlash (cs : List Char) : Option Date := do
  let (d, r1) ← digits2 cs
  let r2 ← lit '/' r1
  let (m, r3) ← digits2 r2
  let r4 ← lit '/' r3
  let (y, r5) ← digits4 r4
  if r5 = [] then mkDate y m d else none

/-- strptime with format `"%Y/%m/%d"`. -/
def fmtYmdSlash (cs : List Char) : Option Date := do
  let (y, r1) ← digits4 cs
  let r2 ← lit '/' r1
  let (m, r3) ← digits2 r2
  let r4 ← lit '/' r3
  let (d, r5) ← digits2 r4
  if r5 = [] then mkDate y m d else none

/-- strptime with format `"%m-%d-%Y"`. -/
def fmtMdYDash (cs : List Char) : Option Date := do
  let (m, r1) ← digits2 cs
  let r2 ← lit '-' r1
  let (d, r3) ← digits2 r2
  let r4 ← lit '-' r3
  let (y, r5) ← digits4 r4
  if r5 = [] then mkDate y m d else none

/-- strptime with format `"%d-%m-%Y"`. -/
def fmtDmYDash (cs : List Char) : Option Date := do
  let (d, r1) ← digits2 cs
  let r2 ← lit '-' r1
  let (m, r3) ← digits2 r2
  let r4 ← lit '-' r3
  let (y, r5) ← digits4 r4
  if r5 = [] then mkDate y m d else none

/-- strptime with format `"%b %d, %Y"`. -/
def fmtBAbbrDY (cs : List Char) : Option Date := do
  let (m, r1) ← monthAbbr cs
  let r2 ← wsPlus r1
  let (d, r3) ← digits2 r2
  let r4 ← lit ',' r3
  let r5 ← wsPlus r4
  let (y, r6) ← digits4 r5
  if r6 = [] then mkDate y m d else none

/-- strptime with format `"%B %d, %Y"`. -/
def fmtBFullDY (cs : List Char) : Option Date := do
  let (m, r1) ← monthFull cs
  let r2 ← wsPlus r1
  let (d, r3) ← digits2 r2
  let r4 ← lit ',' r3
  let r5 ← wsPlus r4
  let (y, r6) ← digits4 r5
  if r6 = [] then mkDate y m d else none

/-- strptime with format `"%d %b %Y"`. -/
def fmtDBAbbrY (cs : List Char) : Option Date := do
  let (d, r1) ← digits2 cs
  let r2 ← wsPlus r1
  let (m, r3) ← monthAbbr r2
  let r4 ← wsPlus r3
  let (y, r5) ← digits4 r4
  if r5 = [] then mkDate y m d else none

/-- strptime with format `"%d %B %Y"`. -/
def fmtDBFullY (cs : List Char) : Option Date := do
  let (d, r1) ← digits2 cs
  let r2 ← wsPlus r1
  let (m, r3) ← monthFull r2
  let r4 ← wsPlus r3
  let (y, r5) ← digits4 r4
  if r5 = [] then mkDate y m d else none

/-- The fixed ordered list `date_formats` of `_parse_date` (lines 366-377). -/
def dateFormats : List (List Char → Option Date) :=
  [fmtYmdDash, fmtMdYSlash, fmtDmYSlash, fmtYmdSlash, fmtMdYDash, fmtDmYDash,
   fmtBAbbrDY, fmtBFullDY, fmtDBAbbrY, fmtDBFullY]

/-- Model of `_parse_date` (table_parser.py lines 360-385). -/
def parse_date (s : List Char) : Option Date :=
  if strip s = [] then none
  else dateFormats.findSome? (fun f => f (strip s))

/-! ### Table classification and parsing (table_parser.py) -/

/-- A raw table: a list of rows, each a list of text cells. -/
abbrev Table := List (List (List Char))

/-- Python substring test `needle in hay`. -/
def containsSub (needle : List Char) : List Char → Bool
  | [] => needle.isEmpty
  | c :: rest => needle.isPrefixOf (c :: rest) || containsSub needle rest

/-- Lower-case a cell (Python `str.lower`, ASCII letters suffice here). -/
def lowerCell (cell : List Char) : List Char := cell.map Char.toLower

/-- Join pieces with single spaces: Python `" ".join(pieces)`. -/
def joinSp : List (List Char) → List Char
  | [] => []
  | [p] => p
  | p :: ps => p ++ ' ' :: joinSp ps

/-- Keyword list `self.capital_call_keywords` (table_parser.py lines 19-22). -/
def capitalCallKeywords : List (List Char) :=
  [s2l "capital call", s2l "capital contribution", s2l "drawdown",
   s2l "call date", s2l "call number", s2l "contribution date"]

/-- Keyword list `self.distribution_keywords` (lines 23-26). -/
def distributionKeywords : List (List Char) :=
  [s2l "distribution", s2l "return of capital", s2l "dividend",
   s2l "distribution date", s2l "payment", s2l "return"]

/-- Keyword list `self.adjustment_keywords` (lines 27-30). -/
def adjustmentKeywords : List (List Char) :=
  [s2l "adjustment", s2l "rebalance", s2l "recall", s2l "recallable",
   s2l "correction", s2l "amendment"]

/-- The classification categories returned by `_classify_table`. -/
inductive Category where
  | capital_call
  | distribution
  | adjustment
  deriving DecidableEq, Repr

/-- The lower-cased search buffer over the first three rows (lines 87-90). -/
def headerText (table : Table) : List Char :=
  joinSp ((table.take 3).map (fun row => joinSp (row.map lowerCell)))

/-- Number of keywords of `kws` occurring as substrings of the buffer (each counts
at most once regardless of repetition). -/
def keywordScore (kws : List (List Char)) (buf : List Char) : Nat :=
  kws.countP (fun kw => containsSub kw buf)

/-- Model of `_classify_table` (table_parser.py lines 81-107). -/
def classify_table (table : Table) : Option Category :=
  if table = [] then none
  else
    let buf := headerText table
    let capital_score := keywordScore capitalCallKeywords buf
    let distribution_score := keywordScore distributionKeywords buf
    let adjustment_score := keywordScore adjustmentKeywords buf
    let max_score := max capital_score (max distribution_score adjustment_score)
    if max_score = 0 then none
    else if capital_score = max_score then some Category.capital_call
    else if distribution_score = max_score then some Category.distribution
    else some Category.adjustment

/-- Header keywords of `_find_header_row` (line 338). -/
def headerKeywords : List (List Char) :=
  [s2l "date", s2l "amount", s2l "type", s2l "description"]

/-- Model of `_find_header_row` (table_parser.py lines 335-346): first of the first three rows
containing a generic header keyword, defaulting to row 0. -/
def find_header_row (table : Table) : Nat :=
  match (table.take 3).findIdx?
      (fun row => headerKeywords.any (fun kw => containsSub kw (joinSp (row.map lowerCell)))) with
  | some idx => idx
  | none => 0

/-- Model of `_find_column` (table_parser.py lines 348-358): first header cell containing any
candidate name as a substring. -/
def find_column (headers : List (List Char)) (possible_names : List (List Char)) : Option Nat :=
  headers.findIdx? (fun header => possible_names.any (fun name => containsSub name header))

/-- Whether a data row yields a capital-call record (lines 135-169): the row must
reach both columns, carry a parseable date and a strictly positive parseable amount.
Persistence of the constructed record is external. -/
def capitalCallRowOk (date_col amount_col : Nat) (row : List (List Char)) : Bool :=
  if row.length ≤ max date_col amount_col then false
  else
    match parse_date (strip (row.getD date_col [])) with
    | none => false
    | some _ =>
      match parse_amount (strip (row.getD amount_col [])) false with
      | none => false
      | some amount => decide (0 < amount.coef)

/-- Model of `_parse_capital_calls` (table_parser.py lines 109-178), counting stored records. -/
def parse_capital_calls (table : Table) : Nat :=
  let header_idx := find_header_row table
  let headers := (table.getD header_idx []).map (fun cell => strip (lowerCell cell))
  let date_col := find_column headers [s2l "date", s2l "call date", s2l "contribution date"]
  let amount_col := find_column headers [s2l "amount", s2l "call amount", s2l "contribution"]
  match date_col, amount_col with
  | some dc, some ac => (table.drop (header_idx + 1)).countP (capitalCallRowOk dc ac)
  | _, _ => 0

/-- Whether a data row yields a distribution record (lines 207-248): same gate as
capital calls (the type and recallable columns never affect the count). -/
def distributionRowOk (date_col amount_col : Nat) (row : List (List Char)) : Bool :=
  if row.length ≤ max date_col amount_col then false
  else
    match parse_date (strip (row.getD date_col [])) with
    | none => false
    | some _ =>
      match parse_amount (strip (row.getD amount_col [])) false with
      | none => false
      | some amount => decide (0 < amount.coef)

/-- Model of `_parse_distributions` (table_parser.py lines 180-257), counting stored records. -/
def parse_distributions (table : Table) : Nat :=
  let header_idx := find_header_row table
  let headers := (table.getD header_idx []).map (fun cell => strip (lowerCell cell))
  let date_col := find_column headers [s2l "date", s2l "distribution date", s2l "payment date"]
  let amount_col := find_column headers [s2l "amount", s2l "distribution", s2l "payment"]
  match date_col, amount_col with
  | some dc, some ac => (table.drop (header_idx + 1)).countP (distributionRowOk dc ac)
  | _, _ => 0

/-- Whether a data row yields an adjustment record (lines 285-324): the amount is
parsed with `allow_negative=True` and only total parse failure skips the row. -/
def adjustmentRowOk (date_col amount_col : Nat) (row : List (List Char)) : Bool :=
  if row.length ≤ max date_col amount_col then false
  else
    match parse_date (strip (row.getD date_col [])) with
    | none => false
    | some _ => (parse_amount (strip (row.getD amount_col [])) true).isSome

/-- Model of `_parse_adjustments` (table_parser.py lines 259-333), counting stored records. -/
def parse_adjustments (table : Table) : Nat :=
  let header_idx := find_header_row table
  let headers := (table.getD header_idx []).map (fun cell => strip (lowerCell cell))
  let date_col := find_column headers [s2l "date", s2l "adjustment date"]
  let amount_col := find_column headers [s2l "amount", s2l "adjustment"]
  match date_col, amount_col with
  | some dc, some ac => (table.drop (header_idx + 1)).countP (adjustmentRowOk dc ac)
  | _, _ => 0

/-- The statistics dict built by `parse_tables` (lines 49-54).  With string cells the
embedded per-table processing is total, so no error string is ever appended. -/
structure Stats where
  capital_calls : Nat
  distributions : Nat
  adjustments : Nat
  errors : List String
  deriving DecidableEq, Repr

/-- Contribution of a single table to the statistics (lines 56-77). -/
def tableStep (stats : Stats) (table : Table) : Stats :=
  if table.length < 2 then stats
  else
    match classify_table table with
    | some Category.capital_call =>
      { stats with capital_calls := stats.capital_calls + parse_capital_calls table }
    | some Category.distribution =>
      { stats with distributions := stats.distributions + parse_distributions table }
    | some Category.adjustment =>
      { stats with adjustments := stats.adjustments + parse_adjustments table }
    | none => stats

/-- Model of `parse_tables` (table_parser.py lines 32-79). -/
def parse_tables (tables : List Table) : Stats :=
  tables.foldl tableStep ⟨0, 0, 0, []⟩

/-! ### Document pipeline (document_processor.py) -/

/-- The statistics dict of a completed `process_document` result (lines 63-74). -/
structure ProcStats where
  pages_processed : Nat
  tables_found : Nat
  capital_calls : Nat
  distributions : Nat
  adjustments : Nat
  text_chunks : Nat
  errors : List String
  deriving DecidableEq, Repr

/-- The result dict of `process_document`: either completed with statistics or
failed with an error string. -/
structure ProcResult where
  status : String
  statistics : Option ProcStats
  error : Option String
  deriving DecidableEq, Repr

/-- Model of `process_document` (document_processor.py lines 22-83).  External collaborators
are explicit: `extracted` is the outcome of `_extract_pdf_content` (an exception
there is the `Except.error` case, caught by the top-level handler), and `add_ok i`
tells whether storing the i-th chunk in the vector store succeeds (a failed store is
caught in the inner handler and the chunk is not counted).  The second component of
the result records that the session acquired at entry was closed (the `finally`). -/
def process_document (cfg : ChunkCfg)
    (extracted : Except String (List Table × List PageText))
    (add_ok : Nat → Bool) : ProcResult × Bool :=
  match extracted with
  | Except.error e => (⟨"failed", none, some e⟩, true)
  | Except.ok (tables, text_content) =>
    let table_stats := parse_tables tables
    let chunks := chunk_text cfg text_content
    let chunk_count := ((List.range chunks.length).filter add_ok).length
    (⟨"completed",
      some ⟨text_content.length, tables.length, table_stats.capital_calls,
        table_stats.distributions, table_stats.adjustments, chunk_count,
        table_stats.errors⟩,
      none⟩, true)

/-! ### Supporting lemmas about `strip` and `tokens` -/

theorem stripTrail_length_le (cs : List Char) : (stripTrail cs).length ≤ cs.length := by
  induction cs with
  | nil => simp [stripTrail]
  | cons c rest ih =>
    simp only [stripTrail]
    split
    · simp
    · simp only [List.length_cons]
      omega

theorem strip_length_le (cs : List Char) : (strip cs).length ≤ cs.length := by
  have h1 := stripTrail_length_le (cs.dropWhile isWS)
  have h2 := length_dropWhile_le isWS cs
  simp only [strip]
  omega

theorem stripTrail_decomp (cs : List Char) :
    ∃ ws, cs = stripTrail cs ++ ws ∧ ∀ c ∈ ws, isWS c := by
  induction cs with
  | nil => exact ⟨[], by simp [stripTrail], by simp⟩
  | cons c rest ih =>
    obtain ⟨ws, hw, hws⟩ := ih
    simp only [stripTrail]
    by_cases h : stripTrail rest = [] ∧ isWS c
    · refine ⟨c :: rest, ?_, ?_⟩
      · simp [h]
      · intro x hx
        rcases List.mem_cons.mp hx with hx | hx
        · exact hx ▸ h.2
        · have : rest = ws := by simpa [h.1] using hw
          exact hws x (this ▸ hx)
    · refine ⟨ws, ?_, hws⟩
      simp only [if_neg h]
      exact congrArg (c :: ·) hw

theorem stripTrail_eq_nil (cs : List Char) (h : stripTrail cs = []) : ∀ c ∈ cs, isWS c := by
  induction cs with
  | nil => simp
  | cons c rest ih =>
    simp only [stripTrail] at h
    split at h
    · rename_i hcond
      intro x hx
      rcases List.mem_cons.mp hx with hx | hx
      · exact hx ▸ hcond.2
      · exact ih hcond.1 x hx
    · simp at h

theorem tokensAux_ws_append {c : Char} (hc : isWS c) :
    ∀ (a b acc : List Char),
      tokensAux (a ++ c :: b) acc = tokensAux a acc ++ tokensAux b [] := by
  intro a
  induction a with
  | nil =>
    intro b acc
    by_cases hacc : acc = [] <;>
      simp [tokensAux, hc, hacc]
  | cons x a' ih =>
    intro b acc
    by_cases hx : isWS x
    · by_cases hacc : acc = [] <;>
        simp [tokensAux, hx, hacc, ih]
    · simp [tokensAux, hx, ih]

theorem tokens_ws_append {c : Char} (hc : isWS c) (a b : List Char) :
    tokens (a ++ c :: b) = tokens a ++ tokens b :=
  tokensAux_ws_append hc a b []

theorem tokens_nil_of_ws (cs : List Char) (h : ∀ c ∈ cs, isWS c) : tokens cs = [] := by
  induction cs with
  | nil => rfl
  | cons c rest ih =>
    have hc : isWS c := h c (by simp)
    simp only [tokens, tokensAux, if_pos hc, if_pos rfl]
    exact ih (fun x hx => h x (by simp [hx]))

theorem tokens_append_ws (a ws : List Char) (h : ∀ c ∈ ws, isWS c) :
    tokens (a ++ ws) = tokens a := by
  match ws with
  | [] => simp
  | w :: ws' =>
    rw [tokens_ws_append (h w (by simp)) a ws']
    rw [tokens_nil_of_ws ws' (fun x hx => h x (by simp [hx]))]
    simp

theorem tokens_cons_ws {c : Char} (h : isWS c) (rest : List Char) :
    tokens (c :: rest) = tokens rest := by
  simp [tokens, tokensAux, h]

theorem tokens_dropWhile (cs : List Char) : tokens (cs.dropWhile isWS) = tokens cs := by
  induction cs with
  | nil => rfl
  | cons c rest ih =>
    by_cases h : isWS c
    · rw [List.dropWhile_cons_of_pos h, tokens_cons_ws h, ih]
    · rw [List.dropWhile_cons_of_neg h]

theorem tokens_strip (cs : List Char) : tokens (strip cs) = tokens cs := by
  obtain ⟨ws, hw, hws⟩ := stripTrail_decomp (cs.dropWhile isWS)
  calc tokens (strip cs)
      = tokens (strip cs ++ ws) := (tokens_append_ws _ ws hws).symm
    _ = tokens (cs.dropWhile isWS) := by rw [strip, ← hw]
    _ = tokens cs := tokens_dropWhile cs

theorem tokens_of_strip_nil (cs : List Char) (h : strip cs = []) : tokens cs = [] := by
  rw [← tokens_dropWhile cs]
  obtain ⟨ws, hw, hws⟩ := stripTrail_decomp (cs.dropWhile isWS)
  rw [hw]
  rw [strip] at h
  rw [h, List.nil_append]
  exact tokens_nil_of_ws ws hws

theorem tokensAux_word :
    ∀ (w acc : List Char), (∀ c ∈ w, isWS c = false) → (acc ≠ [] ∨ w ≠ []) →
      tokensAux w acc = [acc.reverse ++ w] := by
  intro w
  induction w with
  | nil =>
    intro acc _ hne
    have : acc ≠ [] := by
      rcases hne with h | h
      · exact h
      · exact absurd rfl h
    simp [tokensAux, this]
  | cons c w' ih =>
    intro acc h _
    have hc : ¬ isWS c = true := by simp [h c (by simp)]
    simp only [tokensAux, if_neg hc]
    rw [ih (c :: acc) (fun x hx => h x (by simp [hx])) (Or.inl (by simp))]
    simp

theorem tokens_word (w : List Char) (hne : w ≠ []) (h : ∀ c ∈ w, isWS c = false) :
    tokens w = [w] := by
  rw [tokens, tokensAux_word w [] h (Or.inr hne)]
  simp

theorem tokensAux_elem :
    ∀ (cs acc : List Char), (∀ c ∈ acc, isWS c = false) →
      ∀ t ∈ tokensAux cs acc, t ≠ [] ∧ ∀ c ∈ t, isWS c = false := by
  intro cs
  induction cs with
  | nil =>
    intro acc hacc t ht
    by_cases h : acc = []
    · simp [tokensAux, h] at ht
    · simp only [tokensAux, if_neg h, List.mem_singleton] at ht
      subst ht
      refine ⟨by simpa using h, ?_⟩
      intro c hc
      exact hacc c (List.mem_reverse.mp hc)
  | cons c rest ih =>
    intro acc hacc t ht
    by_cases hc : isWS c
    · by_cases h : acc = []
      · simp only [tokensAux, if_pos hc, if_pos h] at ht
        exact ih [] (by simp) t ht
      · simp only [tokensAux, if_pos hc, if_neg h, List.mem_cons] at ht
        rcases ht with ht | ht
        · subst ht
          refine ⟨by simpa using h, ?_⟩
          intro x hx
          exact hacc x (List.mem_reverse.mp hx)
        · exact ih [] (by simp) t ht
    · simp only [tokensAux, if_neg hc] at ht
      refine ih (c :: acc) ?_ t ht
      intro x hx
      rcases List.mem_cons.mp hx with hx | hx
      · subst hx
        simpa using hc
      · exact hacc x hx

theorem tokens_elem (cs : List Char) : ∀ t ∈ tokens cs, t ≠ [] ∧ ∀ c ∈ t, isWS c = false :=
  tokensAux_elem cs [] (by simp)

theorem amountKeep_not_ws (c : Char) (h : amountKeep c = true) : isWS c = false := by
  by_contra hws
  simp only [Bool.not_eq_false] at hws
  simp only [isWS, Bool.or_eq_true, beq_iff_eq] at hws
  rcases hws with ((((h' | h') | h') | h') | h') | h' <;> subst h' <;> revert h <;> decide

theorem strip_eq_self_of_no_ws (cs : List Char) (h : ∀ c ∈ cs, isWS c = false) :
    strip cs = cs := by
  have hdrop : cs.dropWhile isWS = cs := by
    match cs with
    | [] => rfl
    | c :: rest => exact List.dropWhile_cons_of_neg (by simp [h c (by simp)])
  have htrail : ∀ l : List Char, (∀ c ∈ l, isWS c = false) → stripTrail l = l := by
    intro l
    induction l with
    | nil => intro _; rfl
    | cons c rest ih =>
      intro hl
      simp only [stripTrail, ih (fun x hx => hl x (by simp [hx]))]
      simp [hl c (by simp)]
  rw [strip, hdrop]
  exact htrail cs h

theorem findSome_first {α β : Type _} (h : α → Option β) :
    ∀ (pre : List α) (f : α) (post : List α) (d : β),
      (∀ g ∈ pre, h g = none) → h f = some d →
      (pre ++ f :: post).findSome? h = some d := by
  intro pre
  induction pre with
  | nil =>
    intro f post d _ hf
    simp [List.findSome?_cons, hf]
  | cons g pre ih =>
    intro f post d hnone hf
    rw [List.cons_append, List.findSome?_cons, hnone g (by simp)]
    exact ih f post d (fun g' hg' => hnone g' (by simp [hg'])) hf

/-! ### Claim theorems -/

/-- Claim C3: classification is deterministic with the fixed tie-break priority
CapitalCall > Distribution > Adjustment.  If all three keyword scores over the
first three rows are zero the table is unclassified; a table whose capital-call
score is maximal (in particular, tied with the distribution score) is classified
capital_call; a strictly larger distribution score wins over adjustment; and
adjustment wins only when it strictly beats both. -/
theorem claim_C3_classification (t : Table) :
    (keywordScore capitalCallKeywords (headerText t) = 0 ∧
     keywordScore distributionKeywords (headerText t) = 0 ∧
     keywordScore adjustmentKeywords (headerText t) = 0 →
       classify_table t = none) ∧
    (keywordScore distributionKeywords (headerText t) ≤
        keywordScore capitalCallKeywords (headerText t) ∧
     keywordScore adjustmentKeywords (headerText t) ≤
        keywordScore capitalCallKeywords (headerText t) ∧
     keywordScore capitalCallKeywords (headerText t) ≠ 0 →
       classify_table t = some Category.capital_call) ∧
    (keywordScore capitalCallKeywords (headerText t) <
        keywordScore distributionKeywords (headerText t) ∧
     keywordScore adjustmentKeywords (headerText t) ≤
        keywordScore distributionKeywords (headerText t) →
       classify_table t = some Category.distribution) ∧
    (keywordScore capitalCallKeywords (headerText t) <
        keywordScore adjustmentKeywords (headerText t) ∧
     keywordScore distributionKeywords (headerText t) <
        keywordScore adjustmentKeywords (headerText t) →
       classify_table t = some Category.adjustment) := by
  by_cases ht : t = []
  · subst ht
    refine ⟨fun _ => rfl, ?_, ?_, ?_⟩
    · rintro ⟨_, _, hc⟩
      exact absurd (by decide : keywordScore capitalCallKeywords (headerText []) = 0) hc
    · rintro ⟨hc, _⟩
      have : keywordScore capitalCallKeywords (headerText []) = 0 := by decide
      have : keywordScore distributionKeywords (headerText []) = 0 := by decide
      omega
    · rintro ⟨hc, _⟩
      have h1 : keywordScore capitalCallKeywords (headerText []) = 0 := by decide
      have h2 : keywordScore adjustmentKeywords (headerText []) = 0 := by decide
      omega
  · simp only [classify_table, if_neg ht]
    refine ⟨?_, ?_, ?_, ?_⟩
    · rintro ⟨h1, h2, h3⟩
      simp [h1, h2, h3]
    · rintro ⟨h1, h2, h3⟩
      have hmax : max (keywordScore capitalCallKeywords (headerText t))
          (max (keywordScore distributionKeywords (headerText t))
            (keywordScore adjustmentKeywords (headerText t))) =
          keywordScore capitalCallKeywords (headerText t) :=
        Nat.max_eq_left (Nat.max_le.mpr ⟨h1, h2⟩)
      rw [hmax, if_neg h3, if_pos rfl]
    · rintro ⟨h1, h2⟩
      have hda : max (keywordScore distributionKeywords (headerText t))
          (keywordScore adjustmentKeywords (headerText t)) =
          keywordScore distributionKeywords (headerText t) := Nat.max_eq_left h2
      have hmax : max (keywordScore capitalCallKeywords (headerText t))
          (max (keywordScore distributionKeywords (headerText t))
            (keywordScore adjustmentKeywords (headerText t))) =
          keywordScore distributionKeywords (headerText t) := by
        rw [hda]
        exact Nat.max_eq_right (Nat.le_of_lt h1)
      rw [hmax, if_neg (by omega), if_neg (by omega), if_pos rfl]
    · rintro ⟨h1, h2⟩
      have hda : max (keywordScore distributionKeywords (headerText t))
          (keywordScore adjustmentKeywords (headerText t)) =
          keywordScore adjustmentKeywords (headerText t) :=
        Nat.max_eq_right (Nat.le_of_lt h2)
      have hmax : max (keywordScore capitalCallKeywords (headerText t))
          (max (keywordScore distributionKeywords (headerText t))
            (keywordScore adjustmentKeywords (headerText t))) =
          keywordScore adjustmentKeywords (headerText t) := by
        rw [hda]
        exact Nat.max_eq_right (Nat.le_of_lt h1)
      rw [hmax, if_neg (by omega), if_neg (by omega), if_neg (by omega)]

/-- Witness for claim C3: a table whose buffer matches one capital-call keyword and
one distribution keyword (the maximal score) is classified capital_call. -/
theorem claim_C3_witness :
    classify_table [[s2l "Capital Call", s2l "Distribution"]] = some Category.capital_call :=
  (claim_C3_classification [[s2l "Capital Call", s2l "Distribution"]]).2.1
    ⟨by decide, by decide, by decide⟩

/-- Claim C5: `_parse_amount` first strips every character that is not a digit, a
decimal point, or a sign (its result coincides with its result on the cleaned
string), returns none when nothing remains after cleaning, and in particular
parses `"$1,234.56"` (not negative-allowing) to the value 1234.56 and `"(500)"`
(negative-allowing) to the value 500 — the parentheses are stripped and carry no
sign. -/
theorem claim_C5_parse_amount_cleaning :
    (∀ s b, parse_amount s b = parse_amount (cleanAmount s) b) ∧
    (∀ s b, cleanAmount s = [] → parse_amount s b = none) ∧
    (parse_amount (s2l "$1,234.56") false).map Dec.toRat = some ((123456 : ℚ) / 100) ∧
    (parse_amount (s2l "(500)") true).map Dec.toRat = some 500 := by
  have hnows : ∀ s, ∀ c ∈ cleanAmount s, isWS c = false := by
    intro s c hc
    exact amountKeep_not_ws c (List.of_mem_filter hc)
  have hstripclean : ∀ s, strip (cleanAmount s) = cleanAmount s := by
    intro s
    exact strip_eq_self_of_no_ws _ (hnows s)
  have hcleanclean : ∀ s, cleanAmount (cleanAmount s) = cleanAmount s := by
    intro s
    rw [cleanAmount, hstripclean s]
    exact List.filter_eq_self.mpr (fun c hc => List.of_mem_filter hc)
  refine ⟨?_, ?_, ?_, ?_⟩
  · intro s b
    by_cases hs : strip s = []
    · have hcl : cleanAmount s = [] := by
        rw [cleanAmount, hs]
        rfl
      rw [parse_amount, if_pos hs, parse_amount, hcl]
      simp [strip, stripTrail]
    · by_cases hcl : cleanAmount s = []
      · rw [parse_amount, if_neg hs, parse_amount, hcl]
        simp [strip, stripTrail, cleanAmount]
      · rw [parse_amount, if_neg hs, if_neg hcl, parse_amount,
          if_neg (by rw [hstripclean s]; exact hcl), hcleanclean s, if_neg hcl]
  · intro s b hcl
    by_cases hs : strip s = []
    · rw [parse_amount, if_pos hs]
    · rw [parse_amount, if_neg hs, if_pos hcl]
  · rw [show parse_amount (s2l "$1,234.56") false = some ⟨123456, 2⟩ from by decide]
    simp only [Option.map_some', Dec.toRat]
    norm_num
  · rw [show parse_amount (s2l "(500)") true = some ⟨500, 0⟩ from by decide]
    simp only [Option.map_some', Dec.toRat]
    norm_num

/-- Witness for claim C5: a string with no digit, point, or sign character cleans
to nothing and parses to none. -/
theorem claim_C5_witness : parse_amount (s2l "abc") false = none :=
  claim_C5_parse_amount_cleaning.2.1 (s2l "abc") false (by decide)

/-- Claim C6: when the cleaned string converts to a negative number,
`_parse_amount` with `allow_negative=False` returns its absolute value (the sign
is discarded, not rejected) — in particular `"-50"` parses to the value 50 — and
when the numeric conversion fails the result is none (the embedded parser is a
total function, so no exception can escape to the caller). -/
theorem claim_C6_negative_amounts :
    (∀ s d, decimalOfChars (cleanAmount s) = some d → d.coef < 0 →
      parse_amount s false = some d.absD) ∧
    (∀ d : Dec, d.absD.toRat = |d.toRat|) ∧
    (parse_amount (s2l "-50") false).map Dec.toRat = some 50 ∧
    (∀ s b, decimalOfChars (cleanAmount s) = none → parse_amount s b = none) := by
  refine ⟨?_, ?_, ?_, ?_⟩
  · intro s d hx hneg
    have hcl : cleanAmount s ≠ [] := by
      intro h
      rw [h, show decimalOfChars [] = none from rfl] at hx
      exact Option.noConfusion hx
    have hs : strip s ≠ [] := by
      intro h
      apply hcl
      rw [cleanAmount, h]
      rfl
    rw [parse_amount, if_neg hs, if_neg hcl, hx]
    simp [hneg]
  · intro d
    rw [Dec.toRat, Dec.absD, Dec.toRat, abs_div]
    simp [abs_pow, Int.cast_abs]
  · rw [show parse_amount (s2l "-50") false = some ⟨50, 0⟩ from by decide]
    simp only [Option.map_some', Dec.toRat]
    norm_num
  · intro s b hx
    by_cases hs : strip s = []
    · rw [parse_amount, if_pos hs]
    · by_cases hcl : cleanAmount s = []
      · rw [parse_amount, if_neg hs, if_pos hcl]
      · rw [parse_amount, if_neg hs, if_neg hcl, hx]

/-- Witness for claim C6: `"-50"` cleans to a string converting to the negative
number -50, and the theorem yields its absolute value under
`allow_negative=False`. -/
theorem claim_C6_witness : parse_amount (s2l "-50") false = some (Dec.absD ⟨-50, 0⟩) :=
  claim_C6_negative_amounts.1 (s2l "-50") ⟨-50, 0⟩ (by decide) (by decide)

/-- Claim C7: `_parse_date` tries the fixed ordered format list and returns the
first successful parse; empty or blank input yields none; and because the US
slash pattern precedes the EU slash pattern, `"03/04/2023"` parses month-first
to March 4, 2023. -/
theorem claim_C7_parse_date_order :
    (∀ s, strip s = [] → parse_date s = none) ∧
    (∀ (s : List Char) (d : Date) (pre : List (List Char → Option Date)) f post,
      strip s ≠ [] → dateFormats = pre ++ f :: post →
      (∀ g ∈ pre, g (strip s) = none) → f (strip s) = some d →
      parse_date s = some d) ∧
    parse_date (s2l "03/04/2023") = some ⟨2023, 3, 4⟩ := by
  refine ⟨?_, ?_, by decide⟩
  · intro s hs
    rw [parse_date, if_pos hs]
  · intro s d pre f post hne hsplit hnone hf
    rw [parse_date, if_neg hne, hsplit]
    exact findSome_first (fun g => g (strip s)) pre f post d hnone hf

/-- Witness for claim C7: `"03/04/2023"` fails the ISO dash format, is accepted
by the US slash format, and the first-match property yields March 4, 2023. -/
theorem claim_C7_witness : parse_date (s2l "03/04/2023") = some ⟨2023, 3, 4⟩ :=
  claim_C7_parse_date_order.2.1 (s2l "03/04/2023") ⟨2023, 3, 4⟩
    [fmtYmdDash] fmtMdYSlash
    [fmtDmYSlash, fmtYmdSlash, fmtMdYDash, fmtDmYDash,
      fmtBAbbrDY, fmtBFullDY, fmtDBAbbrY, fmtDBFullY]
    (by decide) rfl
    (by
      intro g hg
      rw [List.mem_singleton.mp hg]
      decide)
    (by decide)

/-- Claim C8: a table with fewer than 2 rows (including an empty table) is skipped
by `parse_tables` before any processing: the resulting statistics (all category
counts and the error list) equal those of the input with that table removed. -/
theorem claim_C8_short_tables (pre post : List Table) (t : Table) (ht : t.length < 2) :
    parse_tables (pre ++ t :: post) = parse_tables (pre ++ post) := by
  have hstep : ∀ stats, tableStep stats t = stats := by
    intro stats
    rw [tableStep, if_pos ht]
  simp only [parse_tables, List.foldl_append, List.foldl_cons, hstep]

/-- Witness for claim C8: a one-row table contributes nothing to the statistics. -/
theorem claim_C8_witness :
    parse_tables ([[[s2l "only row"]]] : List Table) = parse_tables ([] : List Table) :=
  claim_C8_short_tables [] [] [[s2l "only row"]] (by decide)

/-- Claim C9: the document pipeline never raises: for every extraction outcome and
every per-chunk indexing outcome, the result is a total value whose status is
"completed" or "failed", the persistence session opened at entry is released
(second component true) on every exit path, and when extraction throws, the
result is exactly the failed result carrying that error string. -/
theorem claim_C9_pipeline_total (cfg : ChunkCfg)
    (extracted : Except String (List Table × List PageText)) (add_ok : Nat → Bool) :
    (process_document cfg extracted add_ok).2 = true ∧
    ((process_document cfg extracted add_ok).1.status = "completed" ∨
     (process_document cfg extracted add_ok).1.status = "failed") ∧
    (∀ e, extracted = Except.error e →
      (process_document cfg extracted add_ok).1 = ⟨"failed", none, some e⟩) := by
  match extracted with
  | Except.error e =>
    refine ⟨rfl, Or.inr rfl, ?_⟩
    intro e' he'
    cases he'
    rfl
  | Except.ok (tables, text_content) =>
    refine ⟨rfl, Or.inl rfl, ?_⟩
    intro e' he'
    cases he'

/-- Witness for claim C9: an extraction failure with message "boom" yields the
failed result carrying "boom", with the session released. -/
theorem claim_C9_witness :
    (process_document ⟨1000, 200⟩ (Except.error "boom") (fun _ => true)).1 =
      ⟨"failed", none, some "boom"⟩ ∧
    (process_document ⟨1000, 200⟩ (Except.error "boom") (fun _ => true)).2 = true :=
  ⟨(claim_C9_pipeline_total ⟨1000, 200⟩ (Except.error "boom") (fun _ => true)).2.2 "boom" rfl,
   (claim_C9_pipeline_total ⟨1000, 200⟩ (Except.error "boom") (fun _ => true)).1⟩

/-! ### Chunk-index contiguity (claim C2) -/

theorem range'_glue (a m n : Nat) :
    List.range' a m ++ List.range' (a + m) n = List.range' a (m + n) := by
  induction m generalizing a with
  | zero => simp
  | succ m ih =>
    have h1 : m + 1 + n = (m + n) + 1 := by omega
    rw [h1, List.range'_succ, List.range'_succ, List.cons_append]
    have h2 : a + (m + 1) = (a + 1) + m := by omega
    rw [h2, ih (a + 1)]

theorem map_idx_concat (l1 l2 : List Chunk) (i j : Nat)
    (h1 : l1.map Chunk.chunk_index = List.range' i l1.length)
    (hj : j = i + l1.length)
    (h2 : l2.map Chunk.chunk_index = List.range' j l2.length) :
    (l1 ++ l2).map Chunk.chunk_index = List.range' i (l1 ++ l2).length := by
  subst hj
  rw [List.map_append, h1, h2, List.length_append, range'_glue]

theorem wordLoop_idx (cfg : ChunkCfg) (page : Nat) :
    ∀ (ws : List (List Char)) (cur : List Char) (idx : Nat),
      (wordLoop cfg page ws cur idx).1.map Chunk.chunk_index =
        List.range' idx (wordLoop cfg page ws cur idx).1.length ∧
      (wordLoop cfg page ws cur idx).2.2 = idx + (wordLoop cfg page ws cur idx).1.length := by
  intro ws
  induction ws with
  | nil =>
    intro cur idx
    simp [wordLoop]
  | cons w ws ih =>
    intro cur idx
    simp only [wordLoop]
    split_ifs with h1 h2
    · obtain ⟨ha, hb⟩ := ih w (idx + 1)
      refine ⟨?_, ?_⟩
      · simp only [List.map_cons, List.length_cons, ha, List.range'_succ]
      · simp only [List.length_cons]
        omega
    all_goals exact ih _ idx

theorem sentLoop_idx (cfg : ChunkCfg) (page : Nat) :
    ∀ (ss : List (List Char)) (cur : List Char) (idx : Nat),
      (sentLoop cfg page ss cur idx).map Chunk.chunk_index =
        List.range' idx (sentLoop cfg page ss cur idx).length := by
  intro ss
  induction ss with
  | nil =>
    intro cur idx
    by_cases h : strip cur = [] <;> simp [sentLoop, h, List.range'_succ]
  | cons s ss ih =>
    intro cur idx
    simp only [sentLoop]
    split_ifs with h1 h2 h3 h4
    · -- overflow, oversized sentence, cur nonempty
      obtain ⟨hw1, hw2⟩ := wordLoop_idx cfg page (tokens s) [] (idx + 1)
      rw [List.append_assoc]
      refine map_idx_concat _ _ idx (idx + 1) (by simp [List.range'_succ]) (by simp) ?_
      exact map_idx_concat _ _ (idx + 1) _ hw1 hw2 (ih _ _)
    · -- overflow, oversized sentence, cur empty
      obtain ⟨hw1, hw2⟩ := wordLoop_idx cfg page (tokens s) [] idx
      rw [List.nil_append]
      exact map_idx_concat _ _ idx _ hw1 hw2 (ih _ _)
    · -- overflow, small sentence, cur nonempty
      refine map_idx_concat _ _ idx (idx + 1) (by simp [List.range'_succ]) (by simp) ?_
      exact ih s (idx + 1)
    · -- overflow, small sentence, cur empty
      rw [List.nil_append]
      exact ih s idx
    all_goals exact ih _ idx

theorem paraLoop_idx (cfg : ChunkCfg) (page : Nat) :
    ∀ (ps : List (List Char)) (cur : List Char) (idx : Nat),
      (paraLoop cfg page ps cur idx).map Chunk.chunk_index =
        List.range' idx (paraLoop cfg page ps cur idx).length := by
  intro ps
  induction ps with
  | nil =>
    intro cur idx
    by_cases h : strip cur = [] <;> simp [paraLoop, h, List.range'_succ]
  | cons p ps ih =>
    intro cur idx
    simp only [paraLoop, split_large_paragraph]
    split_ifs with hp h1 hc h4
    · exact ih cur idx
    · -- overflow, cur nonempty
      have := ih (get_overlap_text cfg cur ++ ' ' :: strip p) (idx + 1)
      simp only [List.map_cons, List.length_cons, this, List.range'_succ]
    · -- overflow, cur empty: paragraph handled by the sentence/word tiers
      exact map_idx_concat _ _ idx _ (sentLoop_idx cfg page _ [] idx) rfl (ih [] _)
    all_goals exact ih _ idx

theorem chunkPages_idx (cfg : ChunkCfg) :
    ∀ (us : List PageText) (idx : Nat),
      (chunkPages cfg idx us).map Chunk.chunk_index =
        List.range' idx (chunkPages cfg idx us).length := by
  intro us
  induction us with
  | nil =>
    intro idx
    simp [chunkPages]
  | cons u us ih =>
    intro idx
    simp only [chunkPages]
    exact map_idx_concat _ _ idx _ (paraLoop_idx cfg u.page _ [] idx) rfl (ih _)

/-- Claim C2: the chunk_index fields of the chunks produced by `_chunk_text`, in
production order across the entire document, form the contiguous sequence
0, 1, 2, ... regardless of how many pages contributed and which tier produced
each chunk. -/
theorem claim_C2_chunk_indices (cfg : ChunkCfg) (text_content : List PageText) :
    (chunk_text cfg text_content).map Chunk.chunk_index =
      List.range (chunk_text cfg text_content).length := by
  rw [List.range_eq_range', chunk_text]
  exact chunkPages_idx cfg text_content 0

/-! ### Page isolation of the chunker (claim C10) -/

theorem wordLoop_shift (cfg : ChunkCfg) (page : Nat) :
    ∀ (ws : List (List Char)) (cur : List Char) (k idx : Nat),
      wordLoop cfg page ws cur (k + idx) =
        ((wordLoop cfg page ws cur idx).1.map (shiftIdx k),
         (wordLoop cfg page ws cur idx).2.1,
         k + (wordLoop cfg page ws cur idx).2.2) := by
  intro ws
  induction ws with
  | nil =>
    intro cur k idx
    simp [wordLoop]
  | cons w ws ih =>
    intro cur k idx
    simp only [wordLoop]
    split_ifs with h1 h2
    · have e1 : k + idx + 1 = k + (idx + 1) := by omega
      rw [e1, ih w k (idx + 1)]
      simp [shiftIdx]
    all_goals exact ih _ k idx

theorem sentLoop_shift (cfg : ChunkCfg) (page : Nat) :
    ∀ (ss : List (List Char)) (cur : List Char) (k idx : Nat),
      sentLoop cfg page ss cur (k + idx) = (sentLoop cfg page ss cur idx).map (shiftIdx k) := by
  intro ss
  induction ss with
  | nil =>
    intro cur k idx
    by_cases h : strip cur = [] <;> simp [sentLoop, h, shiftIdx]
  | cons s ss ih =>
    intro cur k idx
    simp only [sentLoop]
    split_ifs with h1 h2 h3 h4
    · have e1 : k + idx + 1 = k + (idx + 1) := by omega
      rw [e1, wordLoop_shift cfg page (tokens s) [] k (idx + 1), ih _ k _]
      simp [shiftIdx, List.map_append]
    · rw [wordLoop_shift cfg page (tokens s) [] k idx, ih _ k _]
      simp [List.map_append]
    · have e1 : k + idx + 1 = k + (idx + 1) := by omega
      rw [e1, ih s k (idx + 1)]
      simp [shiftIdx]
    · rw [List.nil_append, List.nil_append, ih s k idx]
    all_goals exact ih _ k idx

theorem paraLoop_shift (cfg : ChunkCfg) (page : Nat) :
    ∀ (ps : List (List Char)) (cur : List Char) (k idx : Nat),
      paraLoop cfg page ps cur (k + idx) = (paraLoop cfg page ps cur idx).map (shiftIdx k) := by
  intro ps
  induction ps with
  | nil =>
    intro cur k idx
    by_cases h : strip cur = [] <;> simp [paraLoop, h, shiftIdx]
  | cons p ps ih =>
    intro cur k idx
    simp only [paraLoop, split_large_paragraph]
    split_ifs with hp h1 hc h4
    · exact ih cur k idx
    · have e1 : k + idx + 1 = k + (idx + 1) := by omega
      rw [e1, ih _ k (idx + 1)]
      simp [shiftIdx]
    · rw [sentLoop_shift cfg page _ [] k idx]
      have e2 : k + idx +
          (List.map (shiftIdx k) (sentLoop cfg page (splitSentences (strip p)) [] idx)).length =
          k + (idx + (sentLoop cfg page (splitSentences (strip p)) [] idx).length) := by
        rw [List.length_map]
        omega
      rw [e2, ih [] k _]
      simp [List.map_append]
    all_goals exact ih _ k idx

theorem paraLoop_tp (cfg : ChunkCfg) (page : Nat) (ps : List (List Char)) (cur : List Char)
    (idx : Nat) :
    (paraLoop cfg page ps cur idx).map (fun c => (c.text, c.page)) =
      (paraLoop cfg page ps cur 0).map (fun c => (c.text, c.page)) := by
  have h := paraLoop_shift cfg page ps cur idx 0
  rw [Nat.add_zero] at h
  rw [h, List.map_map]
  rfl

theorem chunkPages_tp (cfg : ChunkCfg) :
    ∀ (us : List PageText) (idx : Nat),
      (chunkPages cfg idx us).map (fun c => (c.text, c.page)) =
        (us.map (fun u => (chunk_text cfg [u]).map (fun c => (c.text, c.page)))).flatten := by
  intro us
  induction us with
  | nil =>
    intro idx
    simp [chunkPages]
  | cons u us ih =>
    intro idx
    simp only [chunkPages, List.map_append, List.map_cons, List.flatten_cons]
    congr 1
    · rw [paraLoop_tp]
      simp [chunk_text, chunkPages]
    · exact ih _

/-- Claim C10: the chunk buffer is flushed at every page boundary: the text/page
contents of the chunks of a whole document are exactly the concatenation of the
chunks obtained by running `_chunk_text` on each (page, text) unit alone, so no
chunk draws text from more than one unit and no overlap text crosses a page
boundary. -/
theorem claim_C10_page_isolation (cfg : ChunkCfg) (text_content : List PageText) :
    (chunk_text cfg text_content).map (fun c => (c.text, c.page)) =
      (text_content.map (fun u => (chunk_text cfg [u]).map (fun c => (c.text, c.page)))).flatten := by
  rw [chunk_text]
  exact chunkPages_tp cfg text_content 0

/-! ### Chunk size bound (claim C1) -/

theorem get_overlap_length_le (cfg : ChunkCfg) (t : List Char) (h : 0 < cfg.overlap) :
    (get_overlap_text cfg t).length ≤ cfg.overlap := by
  have h0 : ¬ cfg.overlap = 0 := by omega
  simp only [get_overlap_text, h0, if_false]
  split_ifs with h1 hse
  · exact h1
  · simp only [List.length_drop]
    omega
  · simp only [List.length_drop]
    omega

theorem paraLoop_bound (cfg : ChunkCfg) (page : Nat) (hov : 0 < cfg.overlap) :
    ∀ (ps : List (List Char)) (cur : List Char) (idx : Nat),
      (∀ p ∈ ps, (strip p).length ≤ cfg.size) →
      cur.length ≤ cfg.size + cfg.overlap + 2 →
      ∀ c ∈ paraLoop cfg page ps cur idx, c.text.length ≤ cfg.size + cfg.overlap + 2 := by
  intro ps
  induction ps with
  | nil =>
    intro cur idx hps hcur c hc
    simp only [paraLoop] at hc
    split_ifs at hc with h
    · simp only [List.mem_singleton] at hc
      subst hc
      exact le_trans (strip_length_le cur) hcur
    · simp at hc
  | cons p ps ih =>
    intro cur idx hps hcur c hc
    simp only [paraLoop, split_large_paragraph] at hc
    split_ifs at hc with hp h1 hc2 h4
    · exact ih cur idx (fun q hq => hps q (by simp [hq])) hcur c hc
    · rcases List.mem_cons.mp hc with hceq | hc'
      · subst hceq
        exact le_trans (strip_length_le cur) hcur
      · refine ih _ (idx + 1) (fun q hq => hps q (by simp [hq])) ?_ c hc'
        have hovle := get_overlap_length_le cfg cur hov
        have hple : (strip p).length ≤ cfg.size := hps p (by simp)
        simp only [List.length_append, List.length_cons]
        omega
    · have hcurnil : cur = [] := not_not.mp hc2
      have hple : (strip p).length ≤ cfg.size := hps p (by simp)
      rw [hcurnil] at h1
      simp only [List.length_nil, Nat.zero_add] at h1
      omega
    all_goals
      refine ih _ idx (fun q hq => hps q (by simp [hq])) ?_ c hc
    all_goals
      have hple : (strip p).length ≤ cfg.size := hps p (by simp)
      simp only [List.length_append, List.length_cons, List.length_nil]
      omega

theorem chunkPages_bound (cfg : ChunkCfg) (hov : 0 < cfg.overlap) :
    ∀ (us : List PageText) (idx : Nat),
      (∀ u ∈ us, ∀ p ∈ splitParagraphs u.text, (strip p).length ≤ cfg.size) →
      ∀ c ∈ chunkPages cfg idx us, c.text.length ≤ cfg.size + cfg.overlap + 2 := by
  intro us
  induction us with
  | nil =>
    intro idx _ c hc
    simp [chunkPages] at hc
  | cons u us ih =>
    intro idx hus c hc
    simp only [chunkPages, List.mem_append] at hc
    rcases hc with hc | hc
    · exact paraLoop_bound cfg u.page hov _ [] idx (hus u (by simp)) (by simp) c hc
    · exact ih _ (fun v hv => hus v (by simp [hv])) c hc

/-- Claim C1 (amended): for every configuration with `0 < overlap < size`, if every
blank-line-separated paragraph of every (page, text) unit has, after trimming,
length at most the configured chunk size, then every produced chunk's text length
is at most `size + overlap + 2`.  (The code's size test ignores the separator it
appends — two characters at the paragraph tier — and a chunk seeded with overlap
text can carry `overlap + 1` extra characters, so the bound `size` itself does not
hold; see the counterexample.) -/
theorem claim_C1_amended_chunk_bound (cfg : ChunkCfg) (text_content : List PageText)
    (hov : 0 < cfg.overlap) (hos : cfg.overlap < cfg.size)
    (hpar : ∀ u ∈ text_content, ∀ p ∈ splitParagraphs u.text, (strip p).length ≤ cfg.size) :
    ∀ c ∈ chunk_text cfg text_content, c.text.length ≤ cfg.size + cfg.overlap + 2 := by
  rw [chunk_text]
  exact chunkPages_bound cfg hov text_content 0 hpar

/-- Witness for claim C1 (amended): a two-paragraph page whose paragraphs are
three characters long under size 10 and overlap 5 yields the single chunk
"aaa\n\nbbb", whose length 8 is within `10 + 5 + 2`. -/
theorem claim_C1_amended_witness :
    (⟨s2l "aaa\n\nbbb", 1, 0⟩ : Chunk).text.length ≤ 10 + 5 + 2 :=
  claim_C1_amended_chunk_bound ⟨10, 5⟩ [⟨1, s2l "aaa\n\nbbb"⟩]
    (by decide) (by decide) (by decide)
    ⟨s2l "aaa\n\nbbb", 1, 0⟩ (by decide)

/-- Counterexample for claim C1 as stated: with size 10 and overlap 5 (so
overlap < size), the page text "aa. bb.\n\ncc. dd." produces the chunk
". bb. cc. dd." of length 13 > 10 although every whitespace token and every
sentence of the source text has length at most 10, so the oversized chunk does
not come from a single oversized word or sentence. -/
theorem claim_C1_counterexample :
    (5 : Nat) < 10 ∧
    chunk_text ⟨10, 5⟩ [⟨1, s2l "aa. bb.\n\ncc. dd."⟩] =
      [⟨s2l "aa. bb.", 1, 0⟩, ⟨s2l ". bb. cc. dd.", 1, 1⟩] ∧
    (s2l ". bb. cc. dd.").length = 13 ∧
    ((tokens (s2l "aa. bb.\n\ncc. dd.")).all (fun t => decide (t.length ≤ 10)) = true) ∧
    ((splitSentences (s2l "aa. bb.\n\ncc. dd.")).all (fun t => decide (t.length ≤ 10)) = true) := by
  decide

/-! ### Token preservation of the word/sentence tiers (claim C4) -/

theorem tokens_nil : tokens ([] : List Char) = [] := rfl

theorem wordLoop_tokens (cfg : ChunkCfg) (page : Nat) :
    ∀ (ws : List (List Char)) (cur : List Char) (idx : Nat),
      (∀ w ∈ ws, w ≠ [] ∧ ∀ c ∈ w, isWS c = false) →
      ((wordLoop cfg page ws cur idx).1.map (fun c => tokens c.text)).flatten ++
        tokens (wordLoop cfg page ws cur idx).2.1 =
      tokens cur ++ ws := by
  intro ws
  induction ws with
  | nil =>
    intro cur idx _
    simp [wordLoop]
  | cons w ws ih =>
    intro cur idx hws
    have hw := hws w (by simp)
    have htail : ∀ v ∈ ws, v ≠ [] ∧ ∀ c ∈ v, isWS c = false :=
      fun v hv => hws v (by simp [hv])
    simp only [wordLoop]
    split_ifs with h1 h2
    · simp only [List.map_cons, List.flatten_cons, List.append_assoc]
      rw [ih w (idx + 1) htail, tokens_strip, tokens_word w hw.1 hw.2]
      simp
    · have hcur : cur = [] := not_not.mp h2
      subst hcur
      rw [ih w idx htail, tokens_word w hw.1 hw.2]
      simp [tokens_nil]
    · -- no overflow, the word starts the empty buffer
      rename_i hc
      subst hc
      rw [ih _ idx htail]
      simp [tokens_word w hw.1 hw.2, tokens_nil]
    · -- no overflow, the word is appended with a space separator
      rw [ih _ idx htail]
      simp only [List.append_assoc, List.singleton_append]
      rw [tokens_ws_append (by decide : isWS ' ') cur w, tokens_word w hw.1 hw.2]
      simp

theorem wordLoop_tokens_tail (cfg : ChunkCfg) (page : Nat) (ws : List (List Char))
    (cur : List Char) (idx : Nat) (tail : List (List Char))
    (hws : ∀ w ∈ ws, w ≠ [] ∧ ∀ c ∈ w, isWS c = false) :
    ((wordLoop cfg page ws cur idx).1.map (fun c => tokens c.text)).flatten ++
      (tokens (wordLoop cfg page ws cur idx).2.1 ++ tail) =
    tokens cur ++ (ws ++ tail) := by
  rw [← List.append_assoc, wordLoop_tokens cfg page ws cur idx hws, List.append_assoc]

theorem sentLoop_tokens (cfg : ChunkCfg) (page : Nat) :
    ∀ (ss : List (List Char)) (cur : List Char) (idx : Nat),
      ((sentLoop cfg page ss cur idx).map (fun c => tokens c.text)).flatten =
        tokens cur ++ (ss.map tokens).flatten := by
  intro ss
  induction ss with
  | nil =>
    intro cur idx
    by_cases h : strip cur = []
    · simp [sentLoop, h, tokens_of_strip_nil cur h]
    · simp [sentLoop, h, tokens_strip]
  | cons s ss ih =>
    intro cur idx
    simp only [sentLoop]
    split_ifs with h1 h2 h3 h4
    · -- overflow, oversized sentence, cur nonempty
      simp only [List.singleton_append, List.map_cons, List.map_append, List.flatten_cons,
        List.flatten_append, List.append_assoc, tokens_strip]
      rw [ih _ _, wordLoop_tokens_tail cfg page (tokens s) [] (idx + 1) _ (tokens_elem s),
        tokens_nil, List.nil_append]
    · -- overflow, oversized sentence, cur empty
      have hcur : cur = [] := not_not.mp h3
      subst hcur
      simp only [List.nil_append, List.map_cons, List.map_append, List.flatten_append,
        List.flatten_cons]
      rw [ih _ _, ← List.append_assoc,
        wordLoop_tokens cfg page (tokens s) [] idx (tokens_elem s), tokens_nil]
      simp
    · -- overflow, small sentence, cur nonempty
      simp only [List.singleton_append, List.map_cons, List.flatten_cons, tokens_strip]
      rw [ih s (idx + 1)]
    · -- overflow, small sentence, cur empty
      have hcur : cur = [] := not_not.mp h4
      subst hcur
      rw [List.nil_append, ih s idx]
      simp [tokens_nil]
    · -- no overflow, the sentence starts the empty buffer
      rename_i hcur
      subst hcur
      rw [ih _ idx]
      simp [tokens_nil]
    · -- no overflow, the sentence is appended with a space separator
      rw [ih _ idx]
      simp only [List.append_assoc, List.singleton_append]
      rw [tokens_ws_append (by decide : isWS ' ') cur s]
      simp

theorem splitSentAux_tokens :
    ∀ (cs : List Char) (prev : Char) (acc : List Char) (skip : Bool),
      (skip = true → acc = []) →
      ((splitSentAux cs prev acc skip).map tokens).flatten = tokens (acc.reverse ++ cs) := by
  intro cs
  induction cs with
  | nil =>
    intro prev acc skip _
    simp [splitSentAux]
  | cons c rest ih =>
    intro prev acc skip hsk
    simp only [splitSentAux]
    split_ifs with hskip hwsc hmatch
    · rw [hsk hskip]
      simp only [List.reverse_nil, List.nil_append]
      rw [ih c [] true (fun _ => rfl)]
      simp [tokens_cons_ws hwsc]
    · rw [ih c (c :: acc) false (by simp)]
      simp [List.reverse_cons, List.append_assoc]
    · simp only [List.map_cons, List.flatten_cons]
      rw [ih c [] true (fun _ => rfl)]
      simp only [List.reverse_nil, List.nil_append]
      rw [tokens_ws_append hmatch.1 acc.reverse rest]
    · rw [ih c (c :: acc) false (by simp)]
      simp [List.reverse_cons, List.append_assoc]

theorem splitSentences_tokens (p : List Char) :
    ((splitSentences p).map tokens).flatten = tokens p := by
  rw [splitSentences, splitSentAux_tokens p ' ' [] false (by simp)]
  simp

/-- Claim C4 (amended): the sentence/word tiers of the chunker never truncate
inside a word: the whitespace-delimited tokens of the chunks produced by
`_split_large_paragraph`, concatenated in production order, are exactly the
whitespace-delimited tokens of the paragraph — in particular a single token
longer than the maximum size is kept whole inside a chunk, never split
mid-token.  (A chunk seeded with overlap text by `_chunk_text` may instead
begin mid-token, because the overlap is sliced at a fixed character offset; see
the counterexample.) -/
theorem claim_C4_amended_no_mid_token_split (cfg : ChunkCfg) (paragraph : List Char)
    (page start_index : Nat) :
    ((split_large_paragraph cfg paragraph page start_index).map
        (fun c => tokens c.text)).flatten =
      tokens paragraph := by
  rw [split_large_paragraph, sentLoop_tokens cfg page (splitSentences paragraph) [] start_index,
    tokens_nil, List.nil_append]
  exact splitSentences_tokens paragraph

/-- Counterexample for claim C4 as stated: with size 10 and overlap 5 the page
text "abcdefgh\n\nxyzxyzxyz" produces the chunk "defgh xyzxyzxyz" whose first
token "defgh" is not a token of the source text — the overlap text carried into
the chunk was sliced mid-word, so the chunk does not begin at a
whitespace-delimited token boundary of the source. -/
theorem claim_C4_counterexample :
    chunk_text ⟨10, 5⟩ [⟨1, s2l "abcdefgh\n\nxyzxyzxyz"⟩] =
      [⟨s2l "abcdefgh", 1, 0⟩, ⟨s2l "defgh xyzxyzxyz", 1, 1⟩] ∧
    tokens (s2l "defgh xyzxyzxyz") = [s2l "defgh", s2l "xyzxyzxyz"] ∧
    tokens (s2l "abcdefgh\n\nxyzxyzxyz") = [s2l "abcdefgh", s2l "xyzxyzxyz"] ∧
    s2l "defgh" ∉ tokens (s2l "abcdefgh\n\nxyzxyzxyz") ∧
    ¬ (tokens (s2l "defgh xyzxyzxyz") <:+: tokens (s2l "abcdefgh\n\nxyzxyzxyz")) := by
  decide

end DocPipeline
